import Mathlib

/-!
Verification of the repository merger tool (src/index.ts).

The source file contains two variants of the same program:
the unfiltered variant (lines 1-207) and the filtered variant
(lines 208-401), which adds an optional `includeExtensions` allow-list.
Shared helpers (`getRepoNameFromUrl`, `generateTreeString`, the sort
comparator, the control flow of `mergeRepositoryFiles`) are identical in
both variants and are embedded once.

Modelling conventions:
- A JavaScript string is a Lean `String`; `s.data` is its character list.
- The on-disk file system is an `FSEntry` tree; `fs.readdirSync` returns
  the entry list of a directory in its stored order, `fs.statSync`
  distinguishes files from directories, and `fs.readFileSync` on a file
  whose `content` is `none` throws (modelled with `Except`).
- `path.join a b` is `a ++ "/" ++ b` (POSIX, plain basenames).
- `Array.prototype.sort` (ES2019: stable, and producing an order sorted
  by a consistent comparator) is modelled by the stable
  `List.insertionSort`; `localeCompare` is modelled as code-point order.
- `String.prototype.split` / `Array.prototype.join` / the first-occurrence
  `String.prototype.replace` are modelled character-exactly by `splitCh`,
  `String.intercalate` and `replFirst` below.
-/

/-- FileTree node (index.ts lines 14-18 / 222-226): `{name, type, children}`.
A file node never carries children and a directory node always carries a
(possibly empty) children array, so the optional `children` field is folded
into the two constructors. -/
inductive FileTree where
  | file (name : String) : FileTree
  | dir (name : String) (children : List FileTree) : FileTree

/-- Name field of a FileTree node. -/
def FileTree.name : FileTree → String
  | .file n => n
  | .dir n _ => n

/-- Children array of a FileTree node (empty for files). -/
def FileTree.childrenOf : FileTree → List FileTree
  | .file _ => []
  | .dir _ cs => cs

/-- Whether a FileTree node has `type: "directory"`. -/
def FileTree.isDirNode : FileTree → Bool
  | .file _ => false
  | .dir _ _ => true

/-- Model of an on-disk directory entry. A file's `content` is `none` when
reading that file fails (`fs.readFileSync` throws on it). -/
inductive FSEntry where
  | file (name : String) (content : Option String) : FSEntry
  | dir (name : String) (entries : List FSEntry) : FSEntry

/-- Basename of an entry, as returned by `fs.readdirSync`. -/
def FSEntry.name : FSEntry → String
  | .file n _ => n
  | .dir n _ => n

/-- Result of `fs.statSync(...).isDirectory()`. -/
def FSEntry.isDir : FSEntry → Bool
  | .file _ _ => false
  | .dir _ _ => true

/-- Characters of a string that contain a given character. Used instead of
`String.contains` so that concrete instances reduce in the kernel. -/
def strHasChar (c : Char) (s : String) : Bool := s.data.contains c

/-- Model of `String.prototype.split(sep)` for a one-character separator,
on character lists: splits at every occurrence, keeping empty pieces. -/
def splitChChars (sep : Char) : List Char → List (List Char)
  | [] => [[]]
  | c :: rest =>
      if c = sep then [] :: splitChChars sep rest
      else
        match splitChChars sep rest with
        | [] => [[c]]
        | l :: ls => (c :: l) :: ls

/-- Model of `String.prototype.split(sep)` for a one-character separator. -/
def splitCh (sep : Char) (s : String) : List String :=
  (splitChChars sep s.data).map fun l => ⟨l⟩

/-- Model of `.split("\n")` as used on the renderer output (line 116 / 338). -/
def splitNl (s : String) : List String := splitCh '\n' s

/-- Model of the first-occurrence `String.prototype.replace(pat, rep)` with a
non-empty string pattern, on character lists. -/
def replFirstChars (pat rep : List Char) : List Char → List Char
  | [] => []
  | c :: rest =>
      if pat.isPrefixOf (c :: rest) then rep ++ (c :: rest).drop pat.length
      else c :: replFirstChars pat rep rest

/-- Model of `s.replace(pat, rep)` (first occurrence only, string pattern). -/
def replFirst (pat rep s : String) : String := ⟨replFirstChars pat.data rep.data s.data⟩

/-- Index of the last `'.'` in a character list, if any. -/
def lastDotIdx : List Char → Option Nat
  | [] => none
  | c :: rest =>
      match lastDotIdx rest with
      | some i => some (i + 1)
      | none => if c = '.' then some 0 else none

/-- Model of Node's `path.extname` on a basename: the substring from the last
dot, except that a name with no dot, a name whose only dot is its first
character (e.g. `.env`), and the special name `..` give `""`. -/
def extname (b : String) : String :=
  if b = ".." then ""
  else
    match lastDotIdx b.data with
    | none => ""
    | some 0 => ""
    | some i => ⟨b.data.drop i⟩

/-- Model of `String.prototype.toLowerCase`, character-wise. -/
def toLowerStr (s : String) : String := ⟨s.data.map Char.toLower⟩

/-- isTextFile (index.ts lines 166-195, unfiltered variant only): membership
of the lower-cased extension in the built-in text-extension list. -/
def isTextFile (extension : String) : Bool :=
  let textExtensions := [".ts", ".js", ".jsx", ".tsx", ".html", ".css",
    ".scss", ".less", ".json", ".md", ".txt", ".yml", ".yaml", ".xml",
    ".csv", ".py", ".java", ".rb", ".php", ".c", ".cpp", ".h", ".hpp",
    ".sh", ".rs"]
  textExtensions.contains (toLowerStr extension)

/-- Suffix of the character list strictly after its last `'/'`, or `none`
when it holds no `'/'` at all. -/
def afterLastSlash : List Char → Option (List Char)
  | [] => none
  | c :: rest =>
      match afterLastSlash rest with
      | some t => some t
      | none => if c = '/' then some rest else none

/-- getRepoNameFromUrl (index.ts lines 20-27 / 228-231): the regex
`\/([^\/]+?)(\.git)?$` matches exactly when at least one character follows
the last slash; the lazy group then captures everything after that slash,
minus a trailing `.git` when the remainder before it is non-empty (for a
tail that is exactly `.git` the lazy group must keep all four characters).
No match falls back to the literal `"repository"`. -/
def getRepoNameFromUrl (url : String) : String :=
  match afterLastSlash url.data with
  | none => "repository"
  | some [] => "repository"
  | some t =>
      if 5 ≤ t.length ∧ ".git".data.isSuffixOf t then ⟨t.take (t.length - 4)⟩
      else ⟨t⟩

mutual
/-- generateTreeString (index.ts lines 29-49 / 233-253): one line per node
with a connector glyph, children indented under a grown prefix. -/
def generateTreeString : FileTree → String → Bool → String
  | FileTree.file n, pfx, isLast =>
      pfx ++ (if isLast then "└─ " else "├─ ") ++ n ++ "\n"
  | FileTree.dir n cs, pfx, isLast =>
      pfx ++ (if isLast then "└─ " else "├─ ") ++ n ++ "\n" ++
        genTreeChildren cs (pfx ++ (if isLast then "   " else "│  "))
/-- The `children.forEach` loop of generateTreeString: the `isLast` flag of a
child is `index === children.length - 1`. -/
def genTreeChildren : List FileTree → String → String
  | [], _ => ""
  | [c], pfx => generateTreeString c pfx true
  | c :: c' :: rest, pfx =>
      generateTreeString c pfx false ++ genTreeChildren (c' :: rest) pfx
end

/-- The tree block of the output (index.ts lines 112-118 / 335-338): the
renderer output is split on newlines, its first two elements are dropped
(`.slice(2)`), and the rest is rejoined under a synthesized `repoName/` line. -/
def treeBlock (repoName : String) (t : FileTree) : String :=
  repoName ++ "/\n" ++
    String.intercalate "\n" ((splitNl (generateTreeString t "" true)).drop 2)

/-- Code-point comparison of character lists, `a ≤ b`; model of the
non-negative outcomes of `a.localeCompare(b)`. -/
def strLeChars : List Char → List Char → Bool
  | [], _ => true
  | _ :: _, [] => false
  | a :: as, b :: bs => if a = b then strLeChars as bs else decide (a < b)

/-- Code-point comparison of strings. -/
def strLe (a b : String) : Bool := strLeChars a.data b.data

/-- The sort comparator of buildFileTree (index.ts lines 63-70 / 268-274) as
a boolean `≤`: directories come first, ties are broken by name order. -/
def entryLe (a b : FSEntry) : Bool :=
  if a.isDir && !b.isDir then true
  else if !a.isDir && b.isDir then false
  else strLe a.name b.name

/-- The comparator as a relation, for `List.insertionSort`. -/
def entryLeP (a b : FSEntry) : Prop := entryLe a b = true

instance : DecidableRel entryLeP := fun a b => by unfold entryLeP; infer_instance

/-- `items.sort(comparator)` (index.ts lines 63-70 / 268-274): a stable sort
by the comparator, modelled by stable insertion sort. -/
def sortEntries (items : List FSEntry) : List FSEntry :=
  List.insertionSort entryLeP items

/-- Permuted lists of entries have equal `sizeOf`; used for termination of
the tree builders, whose recursion passes through `sortEntries`. -/
theorem sizeOf_of_perm : ∀ {l₁ l₂ : List FSEntry}, l₁.Perm l₂ → sizeOf l₁ = sizeOf l₂ := by
  intro l₁ l₂ h
  induction h with
  | nil => rfl
  | cons x _ ih => simp [ih]
  | swap x y l => simp; omega
  | trans _ _ ih₁ ih₂ => omega

/-- Sorting entries preserves `sizeOf`. -/
theorem sizeOf_sortEntries (l : List FSEntry) : sizeOf (sortEntries l) = sizeOf l :=
  sizeOf_of_perm (List.perm_insertionSort entryLeP l)

mutual
/-- buildFileTree of the unfiltered variant (index.ts lines 51-90): sort the
directory listing, recurse into non-excluded subdirectories, and take every
file as a leaf. The excluded-file list is not consulted here. -/
def buildFileTree (entries : List FSEntry) (excludeDirs : List String)
    (repoName : String) : FileTree :=
  FileTree.dir repoName (buildChildren (sortEntries entries) excludeDirs)
termination_by (sizeOf entries, 1)
decreasing_by simp [Prod.lex_def, sizeOf_sortEntries]
/-- The `for (const item of sortedItems)` loop of the unfiltered
buildFileTree (index.ts lines 72-87). -/
def buildChildren : List FSEntry → List String → List FileTree
  | [], _ => []
  | FSEntry.dir n sub :: rest, excludeDirs =>
      if excludeDirs.contains n then buildChildren rest excludeDirs
      else buildFileTree sub excludeDirs n :: buildChildren rest excludeDirs
  | FSEntry.file n _ :: rest, excludeDirs =>
      FileTree.file n :: buildChildren rest excludeDirs
termination_by l _ => (sizeOf l, 0)
decreasing_by all_goals simp [Prod.lex_def] <;> omega
end

/-- The filtered variant's file admission test (index.ts lines 294-299): no
allow-list configured, or the lower-cased extension is a member of the
lower-cased allow-list. -/
def extAllowed (includeExtensions : Option (List String)) (item : String) : Bool :=
  match includeExtensions with
  | none => true
  | some l => (l.map toLowerStr).contains (toLowerStr (extname item))

mutual
/-- buildFileTree of the filtered variant (index.ts lines 255-309): as the
unfiltered one, but a file is kept only when `extAllowed` admits it, and a
recursed subdirectory is kept only when its filtered children list is
non-empty. -/
def buildFileTreeF (entries : List FSEntry) (excludeDirs : List String)
    (repoName : String) (includeExtensions : Option (List String)) : FileTree :=
  FileTree.dir repoName (buildChildrenF (sortEntries entries) excludeDirs includeExtensions)
termination_by (sizeOf entries, 1)
decreasing_by simp [Prod.lex_def, sizeOf_sortEntries]
/-- The entry loop of the filtered buildFileTree (index.ts lines 276-306).
The source keeps `childTree` when `childTree.children.length > 0`. -/
def buildChildrenF : List FSEntry → List String → Option (List String) → List FileTree
  | [], _, _ => []
  | FSEntry.dir n sub :: rest, excludeDirs, includeExtensions =>
      if excludeDirs.contains n then buildChildrenF rest excludeDirs includeExtensions
      else
        let childTree := buildFileTreeF sub excludeDirs n includeExtensions
        if 0 < childTree.childrenOf.length then
          childTree :: buildChildrenF rest excludeDirs includeExtensions
        else buildChildrenF rest excludeDirs includeExtensions
  | FSEntry.file n _ :: rest, excludeDirs, includeExtensions =>
      if extAllowed includeExtensions n then
        FileTree.file n :: buildChildrenF rest excludeDirs includeExtensions
      else buildChildrenF rest excludeDirs includeExtensions
termination_by l _ _ => (sizeOf l, 0)
decreasing_by all_goals simp [Prod.lex_def] <;> omega
end

/-- The unfiltered variant's file admission test (index.ts line 140): the
basename is not in the excluded-file list and `isTextFile(path.extname(item))`
holds. -/
def fileQualifies (excludeFiles : List String) (item : String) : Bool :=
  !excludeFiles.contains item && isTextFile (extname item)

/-- The filtered variant's file admission test (index.ts lines 358-363): the
basename is not in the excluded-file list and `extAllowed` admits it. -/
def fileQualifiesF (excludeFiles : List String)
    (includeExtensions : Option (List String)) (item : String) : Bool :=
  !excludeFiles.contains item && extAllowed includeExtensions item

/-- The text appended to `mergedContent` for one merged file (index.ts lines
142-146 / 365-369): a header comment with the full path, whose leading
`tempDir + "/"` is rewritten to `repoName + "/"` by a first-occurrence
string replace, then the file content, each followed by a newline. -/
def fileBlock (tempDir repoName fullPath content : String) : String :=
  "\n// File: " ++ replFirst (tempDir ++ "/") (repoName ++ "/") fullPath ++ "\n"
    ++ content ++ "\n"

mutual
/-- The body of one iteration of the `for (const item of items)` loop of
processDirectory (index.ts lines 130-149 / 349-372): an excluded directory
or rejected file contributes nothing, a kept directory contributes its
recursive merge, an admitted file contributes its block or throws when its
read fails. -/
def processEntry (fileOk : String → Bool) (excludeDirs : List String)
    (tempDir repoName : String) (dirPath : String) : FSEntry → Except Unit String
  | FSEntry.dir n sub =>
      if excludeDirs.contains n then Except.ok ""
      else processItems fileOk excludeDirs tempDir repoName (dirPath ++ "/" ++ n) sub
  | FSEntry.file n c =>
      if fileOk n then
        match c with
        | none => Except.error ()
        | some content =>
            Except.ok (fileBlock tempDir repoName (dirPath ++ "/" ++ n) content)
      else Except.ok ""
/-- processDirectory (index.ts lines 127-150 / 346-373), common to both
variants up to the file admission test `fileOk`: iterate the raw
`readdirSync` listing (unsorted) and concatenate each item's contribution.
The growth of the closure variable `mergedContent` is modelled by returning
the appended text; a failing `readFileSync` aborts with `Except.error`. -/
def processItems (fileOk : String → Bool) (excludeDirs : List String)
    (tempDir repoName : String) (dirPath : String) : List FSEntry → Except Unit String
  | [] => Except.ok ""
  | e :: rest =>
      match processEntry fileOk excludeDirs tempDir repoName dirPath e with
      | Except.error err => Except.error err
      | Except.ok s =>
          match processItems fileOk excludeDirs tempDir repoName dirPath rest with
          | Except.error err => Except.error err
          | Except.ok s' => Except.ok (s ++ s')
end

/-- processDirectory of the unfiltered variant (index.ts lines 127-150). -/
def processDirectory (excludeDirs excludeFiles : List String)
    (tempDir repoName dirPath : String) (entries : List FSEntry) : Except Unit String :=
  processItems (fileQualifies excludeFiles) excludeDirs tempDir repoName dirPath entries

/-- processDirectory of the filtered variant (index.ts lines 346-373). -/
def processDirectoryF (excludeDirs excludeFiles : List String)
    (includeExtensions : Option (List String))
    (tempDir repoName dirPath : String) (entries : List FSEntry) : Except Unit String :=
  processItems (fileQualifiesF excludeFiles includeExtensions)
    excludeDirs tempDir repoName dirPath entries

/-- Observable effects of one `mergeRepositoryFiles` run: whether the
temporary clone directory exists, the list of full-overwrite writes
performed on the output path (`fs.writeFileSync`), and whether the promise
rejected. -/
structure RunState where
  tempDirExists : Bool
  writes : List String
  failed : Bool

/-- The `finally` block (index.ts lines 158-163 / 381-385):
`if (fs.existsSync(tempDir)) fs.rmSync(tempDir, {recursive, force})`, which
removes the directory whenever it exists. -/
def finallyCleanup (s : RunState) : RunState :=
  if s.tempDirExists then { s with tempDirExists := false } else s

/-- The fixed header of the output document plus the merged file contents
(index.ts lines 120-124 / 340-344 and the final buffer). -/
def mergedDoc (githubUrl nowIso repoName : String) (t : FileTree) (body : String) : String :=
  "// Source: " ++ githubUrl ++ "\n" ++ "// Merged on: " ++ nowIso ++ "\n\n"
    ++ "/*\n" ++ treeBlock repoName t ++ "*/\n\n" ++ body

/-- mergeRepositoryFiles of the unfiltered variant (index.ts lines 92-164).
External effects are parameters: `cloneResult` is the outcome of
`git clone` (`Except.error d` a failure that left the temporary directory
behind when `d` is true, `Except.ok entries` a successful clone of the
given tree); `writeOk` tells whether `fs.writeFileSync` succeeds; `nowIso`
is the timestamp string. The `finally` cleanup runs on every path. -/
def mergeRepositoryFiles (githubUrl : String) (excludeDirs excludeFiles : List String)
    (nowIso tempDir : String) (cloneResult : Except Bool (List FSEntry))
    (writeOk : Bool) : RunState :=
  let repoName := getRepoNameFromUrl githubUrl
  finallyCleanup <|
    match cloneResult with
    | Except.error dirCreated => { tempDirExists := dirCreated, writes := [], failed := true }
    | Except.ok entries =>
        let fileTree := buildFileTree entries excludeDirs repoName
        match processDirectory excludeDirs excludeFiles tempDir repoName tempDir entries with
        | Except.error _ => { tempDirExists := true, writes := [], failed := true }
        | Except.ok body =>
            if writeOk then
              { tempDirExists := true,
                writes := [mergedDoc githubUrl nowIso repoName fileTree body],
                failed := false }
            else { tempDirExists := true, writes := [], failed := true }

/-- mergeRepositoryFiles of the filtered variant (index.ts lines 311-386). -/
def mergeRepositoryFilesF (githubUrl : String) (excludeDirs excludeFiles : List String)
    (includeExtensions : Option (List String)) (nowIso tempDir : String)
    (cloneResult : Except Bool (List FSEntry)) (writeOk : Bool) : RunState :=
  let repoName := getRepoNameFromUrl githubUrl
  finallyCleanup <|
    match cloneResult with
    | Except.error dirCreated => { tempDirExists := dirCreated, writes := [], failed := true }
    | Except.ok entries =>
        let fileTree := buildFileTreeF entries excludeDirs repoName includeExtensions
        match processDirectoryF excludeDirs excludeFiles includeExtensions
            tempDir repoName tempDir entries with
        | Except.error _ => { tempDirExists := true, writes := [], failed := true }
        | Except.ok body =>
            if writeOk then
              { tempDirExists := true,
                writes := [mergedDoc githubUrl nowIso repoName fileTree body],
                failed := false }
            else { tempDirExists := true, writes := [], failed := true }

mutual
/-- Specification-side: the (full path, content) pairs contributed by one
directory entry during the content merge, in traversal order. -/
def dfsEntryFiles (fileOk : String → Bool) (excludeDirs : List String)
    (dirPath : String) : FSEntry → List (String × Option String)
  | FSEntry.dir n sub =>
      if excludeDirs.contains n then []
      else dfsFiles fileOk excludeDirs (dirPath ++ "/" ++ n) sub
  | FSEntry.file n c =>
      if fileOk n then [(dirPath ++ "/" ++ n, c)] else []
/-- Specification-side: the qualifying files below a directory listing, in
the merger's depth-first traversal order (raw listing order of siblings). -/
def dfsFiles (fileOk : String → Bool) (excludeDirs : List String)
    (dirPath : String) : List FSEntry → List (String × Option String)
  | [] => []
  | e :: rest =>
      dfsEntryFiles fileOk excludeDirs dirPath e
        ++ dfsFiles fileOk excludeDirs dirPath rest
end

mutual
/-- Specification-side: the qualifying files in the depth-first order that
§4.1 of the spec prescribes, with the siblings of every level arranged by
the sort comparator (directories first, then name order). -/
def dfsFilesSorted (fileOk : String → Bool) (excludeDirs : List String)
    (dirPath : String) (entries : List FSEntry) : List (String × Option String) :=
  dfsSortedGo fileOk excludeDirs dirPath (sortEntries entries)
termination_by (sizeOf entries, 1)
decreasing_by simp [Prod.lex_def, sizeOf_sortEntries]
/-- Iteration of `dfsFilesSorted` over an already sorted sibling list. -/
def dfsSortedGo (fileOk : String → Bool) (excludeDirs : List String)
    (dirPath : String) : List FSEntry → List (String × Option String)
  | [] => []
  | FSEntry.dir n sub :: rest =>
      (if excludeDirs.contains n then []
       else dfsFilesSorted fileOk excludeDirs (dirPath ++ "/" ++ n) sub)
        ++ dfsSortedGo fileOk excludeDirs dirPath rest
  | FSEntry.file n c :: rest =>
      (if fileOk n then [(dirPath ++ "/" ++ n, c)] else [])
        ++ dfsSortedGo fileOk excludeDirs dirPath rest
termination_by l => (sizeOf l, 0)
decreasing_by all_goals simp [Prod.lex_def] <;> omega
end

mutual
/-- Specification-side: the relative segment paths of the qualifying files
below one entry. -/
def dfsEntryRel (fileOk : String → Bool) (excludeDirs : List String) :
    FSEntry → List (List String)
  | FSEntry.dir n sub =>
      if excludeDirs.contains n then []
      else (dfsRel fileOk excludeDirs sub).map fun segs => n :: segs
  | FSEntry.file n _ => if fileOk n then [[n]] else []
/-- Specification-side: the relative segment paths of the qualifying files
below a directory listing, in traversal order. -/
def dfsRel (fileOk : String → Bool) (excludeDirs : List String) :
    List FSEntry → List (List String)
  | [] => []
  | e :: rest => dfsEntryRel fileOk excludeDirs e ++ dfsRel fileOk excludeDirs rest
end

/-- A segment path joined with `"/"`. -/
def pathOfSegs : List String → String
  | [] => ""
  | [s] => s
  | s :: s' :: rest => s ++ "/" ++ pathOfSegs (s' :: rest)

/-- The connector glyph of one rendered line (index.ts line 34 / 238). -/
def connector (isLast : Bool) : String := if isLast then "└─ " else "├─ "

/-- The three-character indentation segment a child prefix grows by
(index.ts line 38 / 242). -/
def indentSeg (isLast : Bool) : String := if isLast then "   " else "│  "

mutual
/-- Specification-side: the individual lines of the renderer output for one
node, as character lists (without their terminating newlines). -/
def renderLines : FileTree → List Char → Bool → List (List Char)
  | FileTree.file n, pfx, isLast => [pfx ++ (connector isLast).data ++ n.data]
  | FileTree.dir n cs, pfx, isLast =>
      (pfx ++ (connector isLast).data ++ n.data)
        :: renderLinesList cs (pfx ++ (indentSeg isLast).data)
/-- Specification-side: the lines of a sibling list, last sibling flagged. -/
def renderLinesList : List FileTree → List Char → List (List Char)
  | [], _ => []
  | [c], pfx => renderLines c pfx true
  | c :: c' :: rest, pfx =>
      renderLines c pfx false ++ renderLinesList (c' :: rest) pfx
end

/-- A list of lines laid out as one character stream, every line terminated
by a newline. -/
def lineBlock (ls : List (List Char)) : List Char :=
  (ls.map fun l => l ++ ['\n']).flatten

mutual
/-- Total number of nodes of a FileTree. -/
def numNodes : FileTree → Nat
  | FileTree.file _ => 1
  | FileTree.dir _ cs => 1 + numNodesList cs
/-- Total number of nodes of a sibling list. -/
def numNodesList : List FileTree → Nat
  | [] => 0
  | c :: rest => numNodes c + numNodesList rest
end

mutual
/-- Preorder listing of (depth, name) over a FileTree. -/
def depthNames : FileTree → Nat → List (Nat × String)
  | FileTree.file n, d => [(d, n)]
  | FileTree.dir n cs, d => (d, n) :: depthNamesList cs (d + 1)
/-- Preorder listing of (depth, name) over a sibling list. -/
def depthNamesList : List FileTree → Nat → List (Nat × String)
  | [], _ => []
  | c :: rest, d => depthNames c d ++ depthNamesList rest d
end

mutual
/-- Well-formed directory entry: its name holds no path separator, and its
entries are well-formed. -/
def wfEntry : FSEntry → Bool
  | FSEntry.file n _ => !strHasChar '/' n
  | FSEntry.dir n es => !strHasChar '/' n && wfList es
/-- Well-formed directory listing: well-formed entries with pairwise
distinct basenames, as a real directory guarantees. -/
def wfList : List FSEntry → Bool
  | [] => true
  | e :: rest => wfEntry e && !((rest.map FSEntry.name).contains e.name) && wfList rest
end

mutual
/-- Every file below the entry is readable. -/
def readableEntry : FSEntry → Bool
  | FSEntry.file _ c => c.isSome
  | FSEntry.dir _ es => readableList es
/-- Every file below the listing is readable. -/
def readableList : List FSEntry → Bool
  | [] => true
  | e :: rest => readableEntry e && readableList rest
end

mutual
/-- No node name of the tree contains a newline. -/
def nlFreeTree : FileTree → Bool
  | FileTree.file n => !strHasChar '\n' n
  | FileTree.dir n cs => !strHasChar '\n' n && nlFreeList cs
/-- No node name of the sibling list's trees contains a newline. -/
def nlFreeList : List FileTree → Bool
  | [] => true
  | c :: rest => nlFreeTree c && nlFreeList rest
end

/-- The sort comparator transported to FileTree nodes: directories first,
ties broken by name order. -/
def nodeLe (a b : FileTree) : Bool :=
  if a.isDirNode && !b.isDirNode then true
  else if !a.isDirNode && b.isDirNode then false
  else strLe a.name b.name

/-- Adjacent-pairs ordering of a sibling list under `nodeLe`. -/
def chainLe : List FileTree → Bool
  | [] => true
  | [_] => true
  | a :: b :: rest => nodeLe a b && chainLe (b :: rest)

mutual
/-- Every sibling list of the tree is ordered under `nodeLe`. -/
def treeSortedB : FileTree → Bool
  | FileTree.file _ => true
  | FileTree.dir _ cs => chainLe cs && treeSortedList cs
/-- Every sibling list of the trees is ordered under `nodeLe`. -/
def treeSortedList : List FileTree → Bool
  | [] => true
  | c :: rest => treeSortedB c && treeSortedList rest
end

mutual
/-- The node and everything below it contains no directory node with an
empty children list. -/
def noEmptyDirB : FileTree → Bool
  | FileTree.file _ => true
  | FileTree.dir _ cs => !cs.isEmpty && noEmptyDirListB cs
/-- No tree of the list contains a directory node with empty children. -/
def noEmptyDirListB : List FileTree → Bool
  | [] => true
  | c :: rest => noEmptyDirB c && noEmptyDirListB rest
end

/-- Concatenation of a list of strings, in order. -/
def concatStrs : List String → String
  | [] => ""
  | s :: rest => s ++ concatStrs rest

/-- Strings with equal character data are equal. -/
theorem strData_inj {a b : String} (h : a.data = b.data) : a = b := by
  cases a; cases b; simp only [String.data] at h; rw [h]

/-- Splitting at a separator occurrence after a separator-free piece. -/
theorem splitChChars_sepfree_append (sep : Char) :
    ∀ (p b : List Char), sep ∉ p →
      splitChChars sep (p ++ sep :: b) = p :: splitChChars sep b := by
  intro p
  induction p with
  | nil => intro b _; simp [splitChChars]
  | cons c p' ih =>
      intro b h
      have hc : ¬ c = sep := by
        intro hcs; exact h (by simp [hcs])
      have hp' : sep ∉ p' := fun hm => h (List.mem_cons_of_mem _ hm)
      simp only [List.cons_append, splitChChars, if_neg hc]
      rw [show p'.append (sep :: b) = p' ++ sep :: b from rfl, ih b hp']

/-- Splitting a newline-terminated line block recovers the lines plus one
trailing empty piece. -/
theorem splitChChars_lineBlock :
    ∀ ls : List (List Char), (∀ l ∈ ls, ('\n' : Char) ∉ l) →
      splitChChars '\n' (lineBlock ls) = ls ++ [[]] := by
  intro ls
  induction ls with
  | nil => intro _; simp [lineBlock, splitChChars]
  | cons l rest ih =>
      intro h
      have hl : ('\n' : Char) ∉ l := h l (by simp)
      have hrest : ∀ x ∈ rest, ('\n' : Char) ∉ x := fun x hx => h x (by simp [hx])
      have : lineBlock (l :: rest) = l ++ '\n' :: lineBlock rest := by
        simp [lineBlock]
      rw [this, splitChChars_sepfree_append '\n' l (lineBlock rest) hl, ih hrest]
      simp

/-- `lineBlock` distributes over list append. -/
theorem lineBlock_append (a b : List (List Char)) :
    lineBlock (a ++ b) = lineBlock a ++ lineBlock b := by
  simp [lineBlock]

mutual
/-- The character data of the renderer output is the newline-terminated
layout of its specification-side lines. -/
theorem generateTreeString_data :
    ∀ (t : FileTree) (pfx : String) (isLast : Bool),
      (generateTreeString t pfx isLast).data = lineBlock (renderLines t pfx.data isLast)
  | FileTree.file n, pfx, isLast => by
      cases isLast <;>
        simp [generateTreeString, renderLines, lineBlock, connector, String.data_append]
  | FileTree.dir n cs, pfx, isLast => by
      have hrec := genTreeChildren_data cs (pfx ++ (if isLast then "   " else "│  "))
      cases isLast <;>
        simp_all [generateTreeString, renderLines, lineBlock, connector, indentSeg,
          String.data_append, List.append_assoc]
/-- List version of `generateTreeString_data`. -/
theorem genTreeChildren_data :
    ∀ (cs : List FileTree) (pfx : String),
      (genTreeChildren cs pfx).data = lineBlock (renderLinesList cs pfx.data)
  | [], pfx => by simp [genTreeChildren, renderLinesList, lineBlock]
  | [c], pfx => by
      simpa [genTreeChildren, renderLinesList] using generateTreeString_data c pfx true
  | c :: c' :: rest, pfx => by
      have h1 := generateTreeString_data c pfx false
      have h2 := genTreeChildren_data (c' :: rest) pfx
      simp [genTreeChildren, renderLinesList, String.data_append, lineBlock_append, h1, h2]
end

mutual
/-- No rendered line of a newline-free tree under a newline-free prefix
contains a newline. -/
theorem renderLines_nlfree :
    ∀ (t : FileTree) (pfx : List Char) (isLast : Bool),
      nlFreeTree t = true → ('\n' : Char) ∉ pfx →
      ∀ l ∈ renderLines t pfx isLast, ('\n' : Char) ∉ l
  | FileTree.file n, pfx, isLast => by
      intro ht hp l hl
      simp only [renderLines, List.mem_singleton] at hl
      subst hl
      simp [nlFreeTree, strHasChar] at ht
      cases isLast <;> simp_all [connector]
  | FileTree.dir n cs, pfx, isLast => by
      intro ht hp l hl
      simp [nlFreeTree, strHasChar] at ht
      simp only [renderLines, List.mem_cons] at hl
      rcases hl with hl | hl
      · subst hl; cases isLast <;> simp_all [connector]
      · have hp' : ('\n' : Char) ∉ pfx ++ (indentSeg isLast).data := by
          cases isLast <;> simp_all [indentSeg]
        exact renderLinesList_nlfree cs (pfx ++ (indentSeg isLast).data) ht.2 hp' l hl
/-- List version of `renderLines_nlfree`. -/
theorem renderLinesList_nlfree :
    ∀ (cs : List FileTree) (pfx : List Char),
      nlFreeList cs = true → ('\n' : Char) ∉ pfx →
      ∀ l ∈ renderLinesList cs pfx, ('\n' : Char) ∉ l
  | [], _ => by intro _ _ l hl; simp [renderLinesList] at hl
  | [c], pfx => by
      intro hc hp l hl
      simp only [renderLinesList] at hl
      simp only [nlFreeList, Bool.and_eq_true] at hc
      exact renderLines_nlfree c pfx true hc.1 hp l hl
  | c :: c' :: rest, pfx => by
      intro hc hp l hl
      simp only [nlFreeList, Bool.and_eq_true] at hc
      simp only [renderLinesList, List.mem_append] at hl
      rcases hl with hl | hl
      · exact renderLines_nlfree c pfx false hc.1 hp l hl
      · exact renderLinesList_nlfree (c' :: rest) pfx (by simp [nlFreeList, hc.2.1, hc.2.2]) hp l hl
end

mutual
/-- The preorder depth listing has one element per node. -/
theorem depthNames_len : ∀ (t : FileTree) (d : Nat), (depthNames t d).length = numNodes t
  | FileTree.file _, _ => by simp [depthNames, numNodes]
  | FileTree.dir _ cs, d => by
      simp [depthNames, numNodes, depthNamesList_len cs (d + 1), Nat.add_comm]
/-- List version of `depthNames_len`. -/
theorem depthNamesList_len :
    ∀ (cs : List FileTree) (d : Nat), (depthNamesList cs d).length = numNodesList cs
  | [], _ => by simp [depthNamesList, numNodesList]
  | c :: rest, d => by
      simp [depthNamesList, numNodesList, depthNames_len c d, depthNamesList_len rest d]
end

/-- Shape of one rendered line: an indentation of width three times the
node depth (plus the ambient base), a connector glyph, then the node name. -/
def lineShape (base : Nat) (l : List Char) (dn : Nat × String) : Prop :=
  ∃ ind mk, l = ind ++ String.data mk ++ dn.2.data ∧
    ind.length = base + 3 * dn.1 ∧ (mk = "└─ " ∨ mk = "├─ ")

mutual
/-- Each rendered line of a node consists of an indentation matching the
node's depth, one connector glyph, and the node's name. -/
theorem renderLines_shape :
    ∀ (t : FileTree) (pfx : List Char) (isLast : Bool) (base d0 : Nat),
      pfx.length = base + 3 * d0 →
      List.Forall₂ (lineShape base) (renderLines t pfx isLast) (depthNames t d0)
  | FileTree.file n, pfx, isLast, base, d0 => by
      intro hp
      simp only [renderLines, depthNames]
      refine List.Forall₂.cons ⟨pfx, connector isLast, rfl, hp, ?_⟩ List.Forall₂.nil
      cases isLast <;> simp [connector]
  | FileTree.dir n cs, pfx, isLast, base, d0 => by
      intro hp
      simp only [renderLines, depthNames]
      refine List.Forall₂.cons ⟨pfx, connector isLast, rfl, hp, ?_⟩ ?_
      · cases isLast <;> simp [connector]
      · refine renderLinesList_shape cs (pfx ++ (indentSeg isLast).data) base (d0 + 1) ?_
        have : (indentSeg isLast).data.length = 3 := by cases isLast <;> simp [indentSeg]
        simp [List.length_append, hp, this]; ring
/-- List version of `renderLines_shape`. -/
theorem renderLinesList_shape :
    ∀ (cs : List FileTree) (pfx : List Char) (base d0 : Nat),
      pfx.length = base + 3 * d0 →
      List.Forall₂ (lineShape base) (renderLinesList cs pfx) (depthNamesList cs d0)
  | [], _, _, _ => by intro _; simp [renderLinesList, depthNamesList]
  | [c], pfx, base, d0 => by
      intro hp
      simp only [renderLinesList, depthNamesList]
      simpa using renderLines_shape c pfx true base d0 hp
  | c :: c' :: rest, pfx, base, d0 => by
      intro hp
      simp only [renderLinesList, depthNamesList]
      exact List.rel_append (renderLines_shape c pfx false base d0 hp)
        (renderLinesList_shape (c' :: rest) pfx base d0 hp)
end

/-- The first rendered line of any node is its prefix, its connector and its
name. -/
theorem renderLines_head (c : FileTree) (pfx : List Char) (b : Bool) :
    ∃ tail1, renderLines c pfx b = (pfx ++ (connector b).data ++ (FileTree.name c).data) :: tail1 := by
  cases c <;> simp [renderLines, FileTree.name]

/-- `concatStrs` distributes over append. -/
theorem concatStrs_append : ∀ (a b : List String), concatStrs (a ++ b) = concatStrs a ++ concatStrs b := by
  intro a b
  induction a with
  | nil => simp [concatStrs]
  | cons s rest ih => simp [concatStrs, ih, String.append_assoc]

mutual
/-- One loop iteration of processDirectory produces exactly the blocks of
the qualifying files below that entry, in traversal order, provided every
file below it is readable. -/
theorem processEntry_eq :
    ∀ (fileOk : String → Bool) (excludeDirs : List String) (td rn dp : String)
      (e : FSEntry), readableEntry e = true →
      processEntry fileOk excludeDirs td rn dp e =
        Except.ok (concatStrs ((dfsEntryFiles fileOk excludeDirs dp e).map
          fun pc => fileBlock td rn pc.1 (pc.2.getD "")))
  | fileOk, excludeDirs, td, rn, dp, FSEntry.dir n sub => by
      intro hr
      simp only [readableEntry] at hr
      cases hex : excludeDirs.contains n with
      | true =>
          have hm : n ∈ excludeDirs := by simpa using hex
          simp [processEntry, dfsEntryFiles, hm, concatStrs]
      | false =>
          have hm : n ∉ excludeDirs := by simpa using hex
          have h2 := processItems_eq fileOk excludeDirs td rn (dp ++ "/" ++ n) sub hr
          simp [processEntry, dfsEntryFiles, hm, h2]
  | fileOk, excludeDirs, td, rn, dp, FSEntry.file n c => by
      intro hr
      simp only [readableEntry, Option.isSome_iff_exists] at hr
      obtain ⟨content, rfl⟩ := hr
      cases hok : fileOk n <;> simp [processEntry, dfsEntryFiles, hok, concatStrs]
/-- processDirectory produces exactly the blocks of the qualifying files
below the listing, in traversal order, provided every file is readable. -/
theorem processItems_eq :
    ∀ (fileOk : String → Bool) (excludeDirs : List String) (td rn dp : String)
      (l : List FSEntry), readableList l = true →
      processItems fileOk excludeDirs td rn dp l =
        Except.ok (concatStrs ((dfsFiles fileOk excludeDirs dp l).map
          fun pc => fileBlock td rn pc.1 (pc.2.getD "")))
  | fileOk, excludeDirs, td, rn, dp, [] => by
      intro _; simp [processItems, dfsFiles, concatStrs]
  | fileOk, excludeDirs, td, rn, dp, e :: rest => by
      intro hr
      simp only [readableList, Bool.and_eq_true] at hr
      have h1 := processEntry_eq fileOk excludeDirs td rn dp e hr.1
      have h2 := processItems_eq fileOk excludeDirs td rn dp rest hr.2
      simp [processItems, h1, h2, dfsFiles, concatStrs_append]
end

/-- Splitting a separator-free character list leaves one piece. -/
theorem splitChChars_sepfree (sep : Char) :
    ∀ l : List Char, sep ∉ l → splitChChars sep l = [l] := by
  intro l
  induction l with
  | nil => intro _; simp [splitChChars]
  | cons c rest ih =>
      intro h
      have hc : ¬ c = sep := fun hcs => h (by simp [hcs])
      have hrest : sep ∉ rest := fun hm => h (List.mem_cons_of_mem _ hm)
      simp [splitChChars, if_neg hc, ih hrest]

/-- Prepending a segment to a non-empty segment path. -/
theorem pathOfSegs_cons (n : String) :
    ∀ segs : List String, segs ≠ [] → pathOfSegs (n :: segs) = n ++ "/" ++ pathOfSegs segs := by
  intro segs h
  cases segs with
  | nil => exact absurd rfl h
  | cons s rest => simp [pathOfSegs]

/-- Splitting a joined segment path at `'/'` recovers the segments. -/
theorem splitSlash_pathOfSegs :
    ∀ segs : List String, segs ≠ [] → (∀ s ∈ segs, strHasChar '/' s = false) →
      splitChChars '/' (pathOfSegs segs).data = segs.map String.data := by
  intro segs
  induction segs with
  | nil => intro h _; exact absurd rfl h
  | cons s rest ih =>
      intro _ hsl
      have hs : ('/' : Char) ∉ s.data := by
        have := hsl s (by simp)
        simpa [strHasChar] using this
      cases rest with
      | nil => simpa [pathOfSegs] using splitChChars_sepfree '/' s.data hs
      | cons s' r' =>
          have hrest : ∀ x ∈ s' :: r', strHasChar '/' x = false := by
            intro x hx; exact hsl x (by simp [hx])
          have hne : (s' :: r') ≠ ([] : List String) := by simp
          rw [pathOfSegs_cons s (s' :: r') hne]
          have hd : (s ++ "/" ++ pathOfSegs (s' :: r')).data
              = s.data ++ '/' :: (pathOfSegs (s' :: r')).data := by
            simp [String.data_append]
          rw [hd, splitChChars_sepfree_append '/' s.data _ hs, ih hne hrest]
          simp

/-- Joined segment paths are injective on non-empty, slash-free segment
lists. -/
theorem pathOfSegs_inj {a b : List String}
    (ha : a ≠ []) (hb : b ≠ [])
    (hsa : ∀ s ∈ a, strHasChar '/' s = false) (hsb : ∀ s ∈ b, strHasChar '/' s = false)
    (h : pathOfSegs a = pathOfSegs b) : a = b := by
  have hd : (pathOfSegs a).data = (pathOfSegs b).data := by rw [h]
  have := splitSlash_pathOfSegs a ha hsa
  rw [hd, splitSlash_pathOfSegs b hb hsb] at this
  have hinj : Function.Injective String.data := fun x y hxy => strData_inj hxy
  exact (List.map_injective_iff.mpr hinj this).symm

/-- Every relative segment path contributed by one entry is non-empty and
starts with that entry's basename. -/
theorem dfsEntryRel_head :
    ∀ (fileOk : String → Bool) (excludeDirs : List String) (e : FSEntry)
      (segs : List String), segs ∈ dfsEntryRel fileOk excludeDirs e →
      segs.head? = some e.name := by
  intro fileOk excludeDirs e segs hm
  cases e with
  | dir n sub =>
      by_cases hex : n ∈ excludeDirs
      · simp [dfsEntryRel, hex] at hm
      · simp [dfsEntryRel, hex] at hm
        obtain ⟨t, _, rfl⟩ := hm
        simp [FSEntry.name]
  | file n c =>
      cases hok : fileOk n <;> simp [dfsEntryRel, hok] at hm <;> simp [hm, FSEntry.name]

/-- Every relative segment path of a listing is non-empty and starts with
the basename of one of its entries. -/
theorem dfsRel_head :
    ∀ (fileOk : String → Bool) (excludeDirs : List String) (l : List FSEntry)
      (segs : List String), segs ∈ dfsRel fileOk excludeDirs l →
      ∃ e ∈ l, segs.head? = some e.name := by
  intro fileOk excludeDirs l
  induction l with
  | nil => intro segs hm; simp [dfsRel] at hm
  | cons e rest ih =>
      intro segs hm
      simp only [dfsRel, List.mem_append] at hm
      rcases hm with hm | hm
      · exact ⟨e, by simp, dfsEntryRel_head fileOk excludeDirs e segs hm⟩
      · obtain ⟨e', he', hh⟩ := ih segs hm
        exact ⟨e', by simp [he'], hh⟩

/-- A relative segment path is never empty. -/
theorem dfsRel_ne_nil :
    ∀ (fileOk : String → Bool) (excludeDirs : List String) (l : List FSEntry)
      (segs : List String), segs ∈ dfsRel fileOk excludeDirs l → segs ≠ [] := by
  intro fileOk excludeDirs l segs hm hemp
  obtain ⟨e, _, hh⟩ := dfsRel_head fileOk excludeDirs l segs hm
  rw [hemp] at hh
  simp at hh

mutual
/-- The full paths collected by the merge are the relative segment paths
joined under the ambient directory path (entry version). -/
theorem dfsEntryFiles_paths :
    ∀ (fileOk : String → Bool) (excludeDirs : List String) (dp : String) (e : FSEntry),
      (dfsEntryFiles fileOk excludeDirs dp e).map Prod.fst
        = (dfsEntryRel fileOk excludeDirs e).map fun segs => dp ++ "/" ++ pathOfSegs segs
  | fileOk, excludeDirs, dp, FSEntry.dir n sub => by
      by_cases hex : n ∈ excludeDirs
      · simp [dfsEntryFiles, dfsEntryRel, hex]
      · have ih := dfsFiles_paths fileOk excludeDirs (dp ++ "/" ++ n) sub
        have hc : ¬ excludeDirs.contains n = true := by simpa using hex
        simp only [dfsEntryFiles, dfsEntryRel, if_neg hc]
        rw [ih, List.map_map]
        refine List.map_congr_left ?_
        intro segs hsegs
        have hne := dfsRel_ne_nil fileOk excludeDirs sub segs hsegs
        simp [Function.comp, pathOfSegs_cons n segs hne, String.append_assoc]
  | fileOk, excludeDirs, dp, FSEntry.file n c => by
      cases hok : fileOk n <;> simp [dfsEntryFiles, dfsEntryRel, hok, pathOfSegs]
/-- The full paths collected by the merge are the relative segment paths
joined under the ambient directory path (list version). -/
theorem dfsFiles_paths :
    ∀ (fileOk : String → Bool) (excludeDirs : List String) (dp : String) (l : List FSEntry),
      (dfsFiles fileOk excludeDirs dp l).map Prod.fst
        = (dfsRel fileOk excludeDirs l).map fun segs => dp ++ "/" ++ pathOfSegs segs
  | fileOk, excludeDirs, dp, [] => by simp [dfsFiles, dfsRel]
  | fileOk, excludeDirs, dp, e :: rest => by
      have h1 := dfsEntryFiles_paths fileOk excludeDirs dp e
      have h2 := dfsFiles_paths fileOk excludeDirs dp rest
      simp [dfsFiles, dfsRel, h1, h2]
end

/-- Left cancellation of string append. -/
theorem strAppend_cancel_left {a b c : String} (h : a ++ b = a ++ c) : b = c := by
  have hd := congrArg String.data h
  simp only [String.data_append, List.append_cancel_left_eq] at hd
  exact strData_inj hd

mutual
/-- All segments of the relative paths below a well-formed entry are free of
path separators. -/
theorem dfsEntryRel_slash :
    ∀ (fileOk : String → Bool) (excludeDirs : List String) (e : FSEntry),
      wfEntry e = true →
      ∀ segs ∈ dfsEntryRel fileOk excludeDirs e, ∀ s ∈ segs, strHasChar '/' s = false
  | fileOk, excludeDirs, FSEntry.dir n sub => by
      intro hw segs hm s hs
      simp only [wfEntry, Bool.and_eq_true, Bool.not_eq_true'] at hw
      by_cases hex : n ∈ excludeDirs
      · simp [dfsEntryRel, hex] at hm
      · simp [dfsEntryRel, hex] at hm
        obtain ⟨t, ht, rfl⟩ := hm
        rcases List.mem_cons.mp hs with rfl | hs'
        · exact hw.1
        · exact dfsRel_slash fileOk excludeDirs sub hw.2 t ht s hs'
  | fileOk, excludeDirs, FSEntry.file n c => by
      intro hw segs hm s hs
      simp only [wfEntry, Bool.not_eq_true'] at hw
      cases hok : fileOk n <;> simp [dfsEntryRel, hok] at hm
      subst hm
      rcases List.mem_singleton.mp hs with rfl
      exact hw
/-- All segments of the relative paths below a well-formed listing are free
of path separators. -/
theorem dfsRel_slash :
    ∀ (fileOk : String → Bool) (excludeDirs : List String) (l : List FSEntry),
      wfList l = true →
      ∀ segs ∈ dfsRel fileOk excludeDirs l, ∀ s ∈ segs, strHasChar '/' s = false
  | fileOk, excludeDirs, [] => by intro _ segs hm; simp [dfsRel] at hm
  | fileOk, excludeDirs, e :: rest => by
      intro hw segs hm s hs
      simp only [wfList, Bool.and_eq_true] at hw
      simp only [dfsRel, List.mem_append] at hm
      rcases hm with hm | hm
      · exact dfsEntryRel_slash fileOk excludeDirs e hw.1.1 segs hm s hs
      · exact dfsRel_slash fileOk excludeDirs rest hw.2 segs hm s hs
end

mutual
/-- The relative paths below a well-formed entry are pairwise distinct. -/
theorem dfsEntryRel_nodup :
    ∀ (fileOk : String → Bool) (excludeDirs : List String) (e : FSEntry),
      wfEntry e = true → (dfsEntryRel fileOk excludeDirs e).Nodup
  | fileOk, excludeDirs, FSEntry.dir n sub => by
      intro hw
      simp only [wfEntry, Bool.and_eq_true] at hw
      by_cases hex : n ∈ excludeDirs
      · simp [dfsEntryRel, hex]
      · have hc : ¬ excludeDirs.contains n = true := by simpa using hex
        simp only [dfsEntryRel, if_neg hc]
        exact (dfsRel_nodup fileOk excludeDirs sub hw.2).map
          (fun a b hab => by simpa using hab)
  | fileOk, excludeDirs, FSEntry.file n c => by
      intro _
      cases hok : fileOk n <;> simp [dfsEntryRel, hok]
/-- The relative paths below a well-formed listing are pairwise distinct. -/
theorem dfsRel_nodup :
    ∀ (fileOk : String → Bool) (excludeDirs : List String) (l : List FSEntry),
      wfList l = true → (dfsRel fileOk excludeDirs l).Nodup
  | fileOk, excludeDirs, [] => by intro _; simp [dfsRel]
  | fileOk, excludeDirs, e :: rest => by
      intro hw
      simp only [wfList, Bool.and_eq_true] at hw
      have h1 := dfsEntryRel_nodup fileOk excludeDirs e hw.1.1
      have h2 := dfsRel_nodup fileOk excludeDirs rest hw.2
      simp only [dfsRel]
      refine h1.append h2 ?_
      intro segs hma hmb
      have ha := dfsEntryRel_head fileOk excludeDirs e segs hma
      obtain ⟨e', he', hb⟩ := dfsRel_head fileOk excludeDirs rest segs hmb
      have hnames : e.name = e'.name := by
        rw [ha] at hb; exact Option.some.inj hb
      have : (rest.map FSEntry.name).contains e.name = true := by
        simp only [List.elem_eq_mem, decide_eq_true_eq, List.mem_map]
        exact ⟨e', he', hnames.symm⟩
      have hnc := hw.1.2
      simp only [Bool.not_eq_true'] at hnc
      rw [hnc] at this
      exact Bool.false_ne_true this
end

/-- Under well-formedness, the full paths of the merged files are pairwise
distinct. -/
theorem dfsPaths_nodup :
    ∀ (fileOk : String → Bool) (excludeDirs : List String) (dp : String)
      (l : List FSEntry), wfList l = true →
      ((dfsFiles fileOk excludeDirs dp l).map Prod.fst).Nodup := by
  intro fileOk excludeDirs dp l hw
  rw [dfsFiles_paths]
  refine (dfsRel_nodup fileOk excludeDirs l hw).map_on ?_
  intro x hx y hy hxy
  have hpx := strAppend_cancel_left hxy
  exact pathOfSegs_inj (dfsRel_ne_nil fileOk excludeDirs l x hx)
    (dfsRel_ne_nil fileOk excludeDirs l y hy)
    (dfsRel_slash fileOk excludeDirs l hw x hx)
    (dfsRel_slash fileOk excludeDirs l hw y hy) hpx

/-- Code-point comparison of character lists is transitive. -/
theorem strLeChars_trans :
    ∀ a b c : List Char, strLeChars a b = true → strLeChars b c = true →
      strLeChars a c = true := by
  intro a
  induction a with
  | nil => intro b c _ _; simp [strLeChars]
  | cons x xs ih =>
      intro b c h1 h2
      cases b with
      | nil => simp [strLeChars] at h1
      | cons y ys =>
          cases c with
          | nil => simp [strLeChars] at h2
          | cons z zs =>
              simp only [strLeChars] at h1 h2 ⊢
              by_cases hxy : x = y
              · subst hxy
                simp only [if_pos rfl] at h1
                by_cases hyz : x = z
                · subst hyz
                  simp only [if_pos rfl] at h2 ⊢
                  exact ih ys zs h1 h2
                · simp only [if_neg hyz] at h2 ⊢
                  exact h2
              · simp only [if_neg hxy] at h1
                have hlt1 : x < y := of_decide_eq_true h1
                by_cases hyz : y = z
                · subst hyz
                  simp [if_neg hxy, hlt1]
                · have hlt2 : y < z := of_decide_eq_true (by simpa [if_neg hyz] using h2)
                  have hlt : x < z := lt_trans hlt1 hlt2
                  simp [ne_of_lt hlt, hlt]

/-- Code-point comparison of character lists is total. -/
theorem strLeChars_total :
    ∀ a b : List Char, strLeChars a b = true ∨ strLeChars b a = true := by
  intro a
  induction a with
  | nil => intro b; left; simp [strLeChars]
  | cons x xs ih =>
      intro b
      cases b with
      | nil => right; simp [strLeChars]
      | cons y ys =>
          by_cases hxy : x = y
          · subst hxy
            rcases ih ys with h | h
            · left; simpa [strLeChars] using h
            · right; simpa [strLeChars] using h
          · rcases lt_or_gt_of_ne hxy with h | h
            · left; simp [strLeChars, if_neg hxy, h]
            · right
              have hne : ¬ y = x := fun he => hxy he.symm
              simp [strLeChars, if_neg hne, h]

/-- The directory-first comparator is transitive. -/
theorem entryLe_trans :
    ∀ a b c : FSEntry, entryLe a b = true → entryLe b c = true → entryLe a c = true := by
  intro a b c h1 h2
  unfold entryLe at h1 h2 ⊢
  unfold strLe at h1 h2 ⊢
  cases ha : a.isDir <;> cases hb : b.isDir <;> cases hc : c.isDir <;>
    simp_all <;>
    exact strLeChars_trans _ _ _ h1 h2

/-- The directory-first comparator is total. -/
theorem entryLe_total : ∀ a b : FSEntry, entryLe a b = true ∨ entryLe b a = true := by
  intro a b
  unfold entryLe strLe
  cases ha : a.isDir <;> cases hb : b.isDir <;> simp_all <;>
    exact strLeChars_total _ _

instance : IsTrans FSEntry entryLeP := ⟨fun a b c => entryLe_trans a b c⟩

instance : IsTotal FSEntry entryLeP := ⟨fun a b => entryLe_total a b⟩

/-- The sorted listing is a permutation of the raw listing. -/
theorem sortEntries_perm (l : List FSEntry) : (sortEntries l).Perm l :=
  List.perm_insertionSort entryLeP l

/-- The sorted listing is pairwise ordered by the comparator. -/
theorem sortEntries_pairwise (l : List FSEntry) :
    List.Pairwise entryLeP (sortEntries l) :=
  List.sorted_insertionSort entryLeP l

/-- Every node built by the unfiltered loop comes from a listing entry:
files give leaves, non-excluded directories give recursively built trees. -/
theorem buildChildren_mem :
    ∀ (l : List FSEntry) (ex : List String) (t : FileTree), t ∈ buildChildren l ex →
      (∃ n c, FSEntry.file n c ∈ l ∧ t = FileTree.file n) ∨
      (∃ n sub, FSEntry.dir n sub ∈ l ∧ t = buildFileTree sub ex n) := by
  intro l
  induction l with
  | nil => intro ex t ht; simp [buildChildren] at ht
  | cons e rest ih =>
      intro ex t ht
      cases e with
      | file n c =>
          simp only [buildChildren, List.mem_cons] at ht
          rcases ht with rfl | ht
          · exact Or.inl ⟨n, c, by simp, rfl⟩
          · rcases ih ex t ht with ⟨m, c', hm, he⟩ | ⟨m, sub, hm, he⟩
            · exact Or.inl ⟨m, c', by simp [hm], he⟩
            · exact Or.inr ⟨m, sub, by simp [hm], he⟩
      | dir n sub =>
          by_cases hex : ex.contains n = true
          · simp only [buildChildren, if_pos hex] at ht
            rcases ih ex t ht with ⟨m, c', hm, he⟩ | ⟨m, sub', hm, he⟩
            · exact Or.inl ⟨m, c', by simp [hm], he⟩
            · exact Or.inr ⟨m, sub', by simp [hm], he⟩
          · simp only [buildChildren, if_neg hex, List.mem_cons] at ht
            rcases ht with rfl | ht
            · exact Or.inr ⟨n, sub, by simp, rfl⟩
            · rcases ih ex t ht with ⟨m, c', hm, he⟩ | ⟨m, sub', hm, he⟩
              · exact Or.inl ⟨m, c', by simp [hm], he⟩
              · exact Or.inr ⟨m, sub', by simp [hm], he⟩

/-- The root of the unfiltered builder is a directory node with the given
display name. -/
theorem buildFileTree_unfold (l : List FSEntry) (ex : List String) (n : String) :
    buildFileTree l ex n = FileTree.dir n (buildChildren (sortEntries l) ex) := by
  simp [buildFileTree]

/-- Every built node carries the basename and kind of a listing entry. -/
theorem buildChildren_matches :
    ∀ (l : List FSEntry) (ex : List String) (t : FileTree), t ∈ buildChildren l ex →
      ∃ e ∈ l, t.name = e.name ∧ t.isDirNode = e.isDir := by
  intro l ex t ht
  rcases buildChildren_mem l ex t ht with ⟨n, c, hm, rfl⟩ | ⟨n, sub, hm, rfl⟩
  · exact ⟨FSEntry.file n c, hm, by simp [FileTree.name, FileTree.isDirNode, FSEntry.name, FSEntry.isDir]⟩
  · refine ⟨FSEntry.dir n sub, hm, ?_⟩
    rw [buildFileTree_unfold]
    simp [FileTree.name, FileTree.isDirNode, FSEntry.name, FSEntry.isDir]

/-- The comparator transfers from entries to built nodes with matching
basename and kind. -/
theorem nodeLe_of_entryLe {e e' : FSEntry} {t t' : FileTree}
    (hn : t.name = e.name) (hd : t.isDirNode = e.isDir)
    (hn' : t'.name = e'.name) (hd' : t'.isDirNode = e'.isDir)
    (h : entryLe e e' = true) : nodeLe t t' = true := by
  unfold entryLe strLe at h
  unfold nodeLe strLe
  rw [hn, hd, hn', hd']
  exact h

/-- An ordered listing builds an ordered children list. -/
theorem buildChildren_pairwise :
    ∀ (l : List FSEntry) (ex : List String), List.Pairwise entryLeP l →
      List.Pairwise (fun a b => nodeLe a b = true) (buildChildren l ex) := by
  intro l
  induction l with
  | nil => intro ex _; simp [buildChildren]
  | cons e rest ih =>
      intro ex hp
      rcases List.pairwise_cons.mp hp with ⟨hhead, htail⟩
      have hstep : ∀ t ∈ buildChildren rest ex, ∀ s : FileTree,
          s.name = e.name → s.isDirNode = e.isDir → nodeLe s t = true := by
        intro t ht s hsn hsd
        obtain ⟨e', he', hn', hd'⟩ := buildChildren_matches rest ex t ht
        exact nodeLe_of_entryLe hsn hsd hn' hd' (hhead e' he')
      cases e with
      | file n c =>
          simp only [buildChildren]
          refine List.pairwise_cons.mpr ⟨?_, ih ex htail⟩
          intro t ht
          exact hstep t ht (FileTree.file n)
            (by simp [FileTree.name, FSEntry.name])
            (by simp [FileTree.isDirNode, FSEntry.isDir])
      | dir n sub =>
          by_cases hex : ex.contains n = true
          · simp only [buildChildren, if_pos hex]
            exact ih ex htail
          · simp only [buildChildren, if_neg hex]
            refine List.pairwise_cons.mpr ⟨?_, ih ex htail⟩
            intro t ht
            refine hstep t ht (buildFileTree sub ex n) ?_ ?_ <;>
              rw [buildFileTree_unfold] <;>
              simp [FileTree.name, FileTree.isDirNode, FSEntry.name, FSEntry.isDir]

/-- Adjacent ordering follows from pairwise ordering. -/
theorem chainLe_of_pairwise :
    ∀ cs : List FileTree, List.Pairwise (fun a b => nodeLe a b = true) cs →
      chainLe cs = true := by
  intro cs
  induction cs with
  | nil => intro _; simp [chainLe]
  | cons a rest ih =>
      intro hp
      rcases List.pairwise_cons.mp hp with ⟨hhead, htail⟩
      cases rest with
      | nil => simp [chainLe]
      | cons b rest' =>
          simp only [chainLe, Bool.and_eq_true]
          exact ⟨hhead b (by simp), ih htail⟩

/-- A children list whose members are all internally sorted is sorted as a
list. -/
theorem treeSortedList_of_mem :
    ∀ cs : List FileTree, (∀ t ∈ cs, treeSortedB t = true) → treeSortedList cs = true := by
  intro cs
  induction cs with
  | nil => intro _; simp [treeSortedList]
  | cons c rest ih =>
      intro h
      simp only [treeSortedList, Bool.and_eq_true]
      exact ⟨h c (by simp), ih fun t ht => h t (by simp [ht])⟩

/-- A list's `sizeOf` is always positive. -/
theorem list_sizeOf_pos (l : List FSEntry) : 1 ≤ sizeOf l := by
  cases l <;> simp_arith

/-- The unfiltered builder produces a tree whose every sibling list is in
comparator order: directories first, names ascending. -/
theorem treeSortedB_buildFileTree :
    ∀ (N : Nat) (l : List FSEntry) (ex : List String) (n : String),
      sizeOf l ≤ N → treeSortedB (buildFileTree l ex n) = true := by
  intro N
  induction N with
  | zero =>
      intro l ex n h
      have := list_sizeOf_pos l
      omega
  | succ N ih =>
      intro l ex n h
      rw [buildFileTree_unfold]
      simp only [treeSortedB, Bool.and_eq_true]
      constructor
      · exact chainLe_of_pairwise _ (buildChildren_pairwise _ ex (sortEntries_pairwise l))
      · refine treeSortedList_of_mem _ ?_
        intro t ht
        rcases buildChildren_mem (sortEntries l) ex t ht with ⟨m, c, _, rfl⟩ | ⟨m, sub, hm, rfl⟩
        · simp [treeSortedB]
        · have h1 : sizeOf (FSEntry.dir m sub) < sizeOf (sortEntries l) :=
            List.sizeOf_lt_of_mem hm
          have h2 : sizeOf (sortEntries l) = sizeOf l := sizeOf_sortEntries l
          have h3 : sizeOf sub < sizeOf (FSEntry.dir m sub) := by simp_arith
          exact ih sub ex m (by omega)

/-- Every node built by the filtered loop comes from a listing entry:
admitted files give leaves, kept non-excluded directories give recursively
built trees with non-empty children. -/
theorem buildChildrenF_mem :
    ∀ (l : List FSEntry) (ex : List String) (incl : Option (List String)) (t : FileTree),
      t ∈ buildChildrenF l ex incl →
      (∃ n c, FSEntry.file n c ∈ l ∧ t = FileTree.file n) ∨
      (∃ n sub, FSEntry.dir n sub ∈ l ∧ t = buildFileTreeF sub ex n incl ∧
        0 < t.childrenOf.length) := by
  intro l
  induction l with
  | nil => intro ex incl t ht; simp [buildChildrenF] at ht
  | cons e rest ih =>
      intro ex incl t ht
      cases e with
      | file n c =>
          by_cases hok : extAllowed incl n = true
          · simp only [buildChildrenF, if_pos hok, List.mem_cons] at ht
            rcases ht with rfl | ht
            · exact Or.inl ⟨n, c, by simp, rfl⟩
            · rcases ih ex incl t ht with ⟨m, c', hm, he⟩ | ⟨m, sub', hm, he⟩
              · exact Or.inl ⟨m, c', by simp [hm], he⟩
              · exact Or.inr ⟨m, sub', by simp [hm], he⟩
          · simp only [buildChildrenF, if_neg hok] at ht
            rcases ih ex incl t ht with ⟨m, c', hm, he⟩ | ⟨m, sub', hm, he⟩
            · exact Or.inl ⟨m, c', by simp [hm], he⟩
            · exact Or.inr ⟨m, sub', by simp [hm], he⟩
      | dir n sub =>
          by_cases hex : ex.contains n = true
          · simp only [buildChildrenF, if_pos hex] at ht
            rcases ih ex incl t ht with ⟨m, c', hm, he⟩ | ⟨m, sub', hm, he⟩
            · exact Or.inl ⟨m, c', by simp [hm], he⟩
            · exact Or.inr ⟨m, sub', by simp [hm], he⟩
          · simp only [buildChildrenF, if_neg hex] at ht
            by_cases hne : 0 < (buildFileTreeF sub ex n incl).childrenOf.length
            · simp only [if_pos hne, List.mem_cons] at ht
              rcases ht with rfl | ht
              · exact Or.inr ⟨n, sub, by simp, rfl, hne⟩
              · rcases ih ex incl t ht with ⟨m, c', hm, he⟩ | ⟨m, sub', hm, he⟩
                · exact Or.inl ⟨m, c', by simp [hm], he⟩
                · exact Or.inr ⟨m, sub', by simp [hm], he⟩
            · simp only [if_neg hne] at ht
              rcases ih ex incl t ht with ⟨m, c', hm, he⟩ | ⟨m, sub', hm, he⟩
              · exact Or.inl ⟨m, c', by simp [hm], he⟩
              · exact Or.inr ⟨m, sub', by simp [hm], he⟩

/-- The root of the filtered builder is a directory node with the given
display name. -/
theorem buildFileTreeF_unfold (l : List FSEntry) (ex : List String) (n : String)
    (incl : Option (List String)) :
    buildFileTreeF l ex n incl = FileTree.dir n (buildChildrenF (sortEntries l) ex incl) := by
  simp [buildFileTreeF]

/-- Every node built by the filtered loop carries the basename and kind of a
listing entry. -/
theorem buildChildrenF_matches :
    ∀ (l : List FSEntry) (ex : List String) (incl : Option (List String)) (t : FileTree),
      t ∈ buildChildrenF l ex incl →
      ∃ e ∈ l, t.name = e.name ∧ t.isDirNode = e.isDir := by
  intro l ex incl t ht
  rcases buildChildrenF_mem l ex incl t ht with ⟨n, c, hm, rfl⟩ | ⟨n, sub, hm, rfl, _⟩
  · exact ⟨FSEntry.file n c, hm, by simp [FileTree.name, FileTree.isDirNode, FSEntry.name, FSEntry.isDir]⟩
  · refine ⟨FSEntry.dir n sub, hm, ?_⟩
    rw [buildFileTreeF_unfold]
    simp [FileTree.name, FileTree.isDirNode, FSEntry.name, FSEntry.isDir]

/-- An ordered listing builds an ordered children list (filtered variant). -/
theorem buildChildrenF_pairwise :
    ∀ (l : List FSEntry) (ex : List String) (incl : Option (List String)),
      List.Pairwise entryLeP l →
      List.Pairwise (fun a b => nodeLe a b = true) (buildChildrenF l ex incl) := by
  intro l
  induction l with
  | nil => intro ex incl _; simp [buildChildrenF]
  | cons e rest ih =>
      intro ex incl hp
      rcases List.pairwise_cons.mp hp with ⟨hhead, htail⟩
      have hstep : ∀ t ∈ buildChildrenF rest ex incl, ∀ s : FileTree,
          s.name = e.name → s.isDirNode = e.isDir → nodeLe s t = true := by
        intro t ht s hsn hsd
        obtain ⟨e', he', hn', hd'⟩ := buildChildrenF_matches rest ex incl t ht
        exact nodeLe_of_entryLe hsn hsd hn' hd' (hhead e' he')
      cases e with
      | file n c =>
          by_cases hok : extAllowed incl n = true
          · simp only [buildChildrenF, if_pos hok]
            refine List.pairwise_cons.mpr ⟨?_, ih ex incl htail⟩
            intro t ht
            exact hstep t ht (FileTree.file n)
              (by simp [FileTree.name, FSEntry.name])
              (by simp [FileTree.isDirNode, FSEntry.isDir])
          · simp only [buildChildrenF, if_neg hok]
            exact ih ex incl htail
      | dir n sub =>
          by_cases hex : ex.contains n = true
          · simp only [buildChildrenF, if_pos hex]
            exact ih ex incl htail
          · simp only [buildChildrenF, if_neg hex]
            by_cases hne : 0 < (buildFileTreeF sub ex n incl).childrenOf.length
            · simp only [if_pos hne]
              refine List.pairwise_cons.mpr ⟨?_, ih ex incl htail⟩
              intro t ht
              refine hstep t ht (buildFileTreeF sub ex n incl) ?_ ?_ <;>
                rw [buildFileTreeF_unfold] <;>
                simp [FileTree.name, FileTree.isDirNode, FSEntry.name, FSEntry.isDir]
            · simp only [if_neg hne]
              exact ih ex incl htail

/-- The filtered builder produces a tree whose every sibling list is in
comparator order. -/
theorem treeSortedB_buildFileTreeF :
    ∀ (N : Nat) (l : List FSEntry) (ex : List String) (n : String)
      (incl : Option (List String)),
      sizeOf l ≤ N → treeSortedB (buildFileTreeF l ex n incl) = true := by
  intro N
  induction N with
  | zero =>
      intro l ex n incl h
      have := list_sizeOf_pos l
      omega
  | succ N ih =>
      intro l ex n incl h
      rw [buildFileTreeF_unfold]
      simp only [treeSortedB, Bool.and_eq_true]
      constructor
      · exact chainLe_of_pairwise _ (buildChildrenF_pairwise _ ex incl (sortEntries_pairwise l))
      · refine treeSortedList_of_mem _ ?_
        intro t ht
        rcases buildChildrenF_mem (sortEntries l) ex incl t ht with
          ⟨m, c, _, rfl⟩ | ⟨m, sub, hm, rfl, _⟩
        · simp [treeSortedB]
        · have h1 : sizeOf (FSEntry.dir m sub) < sizeOf (sortEntries l) :=
            List.sizeOf_lt_of_mem hm
          have h2 : sizeOf (sortEntries l) = sizeOf l := sizeOf_sortEntries l
          have h3 : sizeOf sub < sizeOf (FSEntry.dir m sub) := by simp_arith
          exact ih sub ex m incl (by omega)

/-- A children list whose members all avoid empty directories avoids them as
a list. -/
theorem noEmptyDirList_of_mem :
    ∀ cs : List FileTree, (∀ t ∈ cs, noEmptyDirB t = true) → noEmptyDirListB cs = true := by
  intro cs
  induction cs with
  | nil => intro _; simp [noEmptyDirListB]
  | cons c rest ih =>
      intro h
      simp only [noEmptyDirListB, Bool.and_eq_true]
      exact ⟨h c (by simp), ih fun t ht => h t (by simp [ht])⟩

/-- No child list built by the filtered builder contains a directory node
with an empty children list, at any depth. -/
theorem noEmptyDir_buildChildrenF :
    ∀ (N : Nat) (l : List FSEntry) (ex : List String) (incl : Option (List String)),
      sizeOf l ≤ N → noEmptyDirListB (buildChildrenF l ex incl) = true := by
  intro N
  induction N with
  | zero =>
      intro l ex incl h
      have := list_sizeOf_pos l
      omega
  | succ N ih =>
      intro l ex incl h
      refine noEmptyDirList_of_mem _ ?_
      intro t ht
      rcases buildChildrenF_mem l ex incl t ht with ⟨m, c, _, rfl⟩ | ⟨m, sub, hm, rfl, hne⟩
      · simp [noEmptyDirB]
      · rw [buildFileTreeF_unfold] at hne ⊢
        simp only [FileTree.childrenOf] at hne
        simp only [noEmptyDirB, Bool.and_eq_true]
        have h1 : sizeOf (FSEntry.dir m sub) < sizeOf l := List.sizeOf_lt_of_mem hm
        have h3 : sizeOf sub < sizeOf (FSEntry.dir m sub) := by simp_arith
        have h4 : sizeOf (sortEntries sub) = sizeOf sub := sizeOf_sortEntries sub
        constructor
        · cases hcs : buildChildrenF (sortEntries sub) ex incl with
          | nil => rw [hcs] at hne; simp at hne
          | cons a b => simp
        · exact ih (sortEntries sub) ex incl (by omega)

/-- Every file of a listing appears as a leaf among the children built by
the unfiltered loop, whatever its name. -/
theorem file_mem_buildChildren :
    ∀ (l : List FSEntry) (ex : List String) (fname : String) (c : Option String),
      FSEntry.file fname c ∈ l → FileTree.file fname ∈ buildChildren l ex := by
  intro l
  induction l with
  | nil => intro ex fname c hm; simp at hm
  | cons e rest ih =>
      intro ex fname c hm
      rcases List.mem_cons.mp hm with he | hm'
      · rw [← he]
        simp [buildChildren]
      · cases e with
        | file n c' => simp [buildChildren, ih ex fname c hm']
        | dir n sub =>
            by_cases hex : ex.contains n = true
            · simp only [buildChildren, if_pos hex]
              exact ih ex fname c hm'
            · simp only [buildChildren, if_neg hex]
              exact List.mem_cons_of_mem _ (ih ex fname c hm')

/-- A slash-free character list has no suffix after a last slash. -/
theorem afterLastSlash_none :
    ∀ l : List Char, ('/' : Char) ∉ l → afterLastSlash l = none := by
  intro l
  induction l with
  | nil => intro _; rfl
  | cons c rest ih =>
      intro h
      have hc : ¬ c = '/' := fun hcs => h (by simp [hcs])
      have hrest : ('/' : Char) ∉ rest := fun hm => h (List.mem_cons_of_mem _ hm)
      simp [afterLastSlash, ih hrest, hc]

/-- Replacing the first occurrence of a non-empty pattern at the very start
of a string substitutes exactly that leading occurrence. -/
theorem replFirstChars_prefixed :
    ∀ (pd rep t : List Char), pd ≠ [] → replFirstChars pd rep (pd ++ t) = rep ++ t := by
  intro pd rep t h
  cases pd with
  | nil => exact absurd rfl h
  | cons p pr =>
      have hpre : (p :: pr).isPrefixOf (p :: (pr ++ t)) = true := by
        rw [← List.cons_append, List.isPrefixOf_iff_prefix]
        exact List.prefix_append _ _
      show replFirstChars (p :: pr) rep ((p :: pr) ++ t) = rep ++ t
      simp only [List.cons_append, replFirstChars, hpre, if_true]
      simp [List.drop_left]

/-- The header of a merged file directly below the temporary clone directory
displays the repository name in place of the temporary directory name. -/
theorem fileBlock_display (tempDir repoName rel content : String) :
    fileBlock tempDir repoName (tempDir ++ "/" ++ rel) content
      = "\n// File: " ++ (repoName ++ "/" ++ rel) ++ "\n" ++ content ++ "\n" := by
  unfold fileBlock
  have hr : replFirst (tempDir ++ "/") (repoName ++ "/") (tempDir ++ "/" ++ rel)
      = repoName ++ "/" ++ rel := by
    apply strData_inj
    show replFirstChars (tempDir ++ "/").data (repoName ++ "/").data (tempDir ++ "/" ++ rel).data
        = (repoName ++ "/" ++ rel).data
    have h1 : (tempDir ++ "/" ++ rel).data = (tempDir ++ "/").data ++ rel.data := by
      simp [String.data_append]
    have h2 : (tempDir ++ "/").data ≠ [] := by
      simp [String.data_append]
    rw [h1, replFirstChars_prefixed _ _ _ h2]
    simp [String.data_append]
  rw [hr]

/-- The `finally` cleanup leaves no temporary directory behind, whatever
state the run ended in. -/
theorem finallyCleanup_removes (s : RunState) : (finallyCleanup s).tempDirExists = false := by
  cases hb : s.tempDirExists <;> simp [finallyCleanup, hb]

/-- Splitting the renderer output of a newline-free tree yields one string
per specification-side line, plus one empty trailing piece. -/
theorem splitNl_generateTreeString (t : FileTree) (h : nlFreeTree t = true) :
    splitNl (generateTreeString t "" true)
      = (renderLines t [] true).map (fun l => (⟨l⟩ : String)) ++ [""] := by
  have hd := generateTreeString_data t "" true
  have hnl := renderLines_nlfree t [] true h (by simp)
  unfold splitNl splitCh
  rw [hd]
  show (splitChChars '\n' (lineBlock (renderLines t [] true))).map _ = _
  rw [splitChChars_lineBlock _ hnl]
  simp

/-- C4: on every exit path of a run — clone failure, merge failure, write
failure or success — the `finally` block removes the temporary clone
directory (tolerating a missing one), so no run leaves it behind. -/
theorem temp_dir_always_removed :
    ∀ (githubUrl : String) (excludeDirs excludeFiles : List String)
      (includeExtensions : Option (List String)) (nowIso tempDir : String)
      (cloneResult : Except Bool (List FSEntry)) (writeOk : Bool),
      (mergeRepositoryFiles githubUrl excludeDirs excludeFiles nowIso tempDir
          cloneResult writeOk).tempDirExists = false
      ∧ (mergeRepositoryFilesF githubUrl excludeDirs excludeFiles includeExtensions
          nowIso tempDir cloneResult writeOk).tempDirExists = false := by
  intro githubUrl excludeDirs excludeFiles includeExtensions nowIso tempDir cloneResult writeOk
  constructor
  · unfold mergeRepositoryFiles
    exact finallyCleanup_removes _
  · unfold mergeRepositoryFilesF
    exact finallyCleanup_removes _

/-- C3: after a successful clone, a read failure during the merge makes the
run fail with no write to the output path, while a fully successful
traversal writes the complete buffer exactly once (a single full-overwrite
write event), in both variants. -/
theorem read_failure_aborts_write :
    ∀ (githubUrl : String) (excludeDirs excludeFiles : List String)
      (includeExtensions : Option (List String)) (nowIso tempDir : String)
      (writeOk : Bool) (entries : List FSEntry),
      (let repoName := getRepoNameFromUrl githubUrl
       let s := mergeRepositoryFiles githubUrl excludeDirs excludeFiles nowIso tempDir
         (Except.ok entries) writeOk
       (processDirectory excludeDirs excludeFiles tempDir repoName tempDir entries
           = Except.error () → s.writes = [] ∧ s.failed = true)
       ∧ (∀ body, processDirectory excludeDirs excludeFiles tempDir repoName tempDir entries
           = Except.ok body → writeOk = true →
           s.writes = [mergedDoc githubUrl nowIso repoName
             (buildFileTree entries excludeDirs repoName) body] ∧ s.failed = false))
      ∧ (let repoName := getRepoNameFromUrl githubUrl
         let s := mergeRepositoryFilesF githubUrl excludeDirs excludeFiles includeExtensions
           nowIso tempDir (Except.ok entries) writeOk
         (processDirectoryF excludeDirs excludeFiles includeExtensions tempDir repoName
             tempDir entries = Except.error () → s.writes = [] ∧ s.failed = true)
         ∧ (∀ body, processDirectoryF excludeDirs excludeFiles includeExtensions tempDir
             repoName tempDir entries = Except.ok body → writeOk = true →
             s.writes = [mergedDoc githubUrl nowIso repoName
               (buildFileTreeF entries excludeDirs repoName includeExtensions) body]
             ∧ s.failed = false)) := by
  intro githubUrl excludeDirs excludeFiles includeExtensions nowIso tempDir writeOk entries
  refine ⟨⟨?_, ?_⟩, ⟨?_, ?_⟩⟩
  · intro h
    simp [mergeRepositoryFiles, h, finallyCleanup]
  · intro body h hw
    simp [mergeRepositoryFiles, h, hw, finallyCleanup]
  · intro h
    simp [mergeRepositoryFilesF, h, finallyCleanup]
  · intro body h hw
    simp [mergeRepositoryFilesF, h, hw, finallyCleanup]

/-- Witness for C3: a repository holding one unreadable text file aborts the
run, with nothing written; the same repository with the file readable
produces exactly one write. -/
theorem read_failure_aborts_write_witness :
    ((mergeRepositoryFiles "u" [] [] "now" "t"
        (Except.ok [FSEntry.file "a.md" none]) true).writes = []
      ∧ (mergeRepositoryFiles "u" [] [] "now" "t"
        (Except.ok [FSEntry.file "a.md" none]) true).failed = true)
    ∧ (mergeRepositoryFiles "u" [] [] "now" "t"
        (Except.ok [FSEntry.file "a.md" (some "X")]) true).writes
      = [mergedDoc "u" "now" (getRepoNameFromUrl "u")
          (buildFileTree [FSEntry.file "a.md" (some "X")] [] (getRepoNameFromUrl "u"))
          "\n// File: repository/a.md\nX\n"] := by
  constructor
  · exact (read_failure_aborts_write "u" [] [] none "now" "t" true
      [FSEntry.file "a.md" none]).1.1 rfl
  · exact ((read_failure_aborts_write "u" [] [] none "now" "t" true
      [FSEntry.file "a.md" (some "X")]).1.2 "\n// File: repository/a.md\nX\n" rfl rfl).1

/-- C7: the Tree Builder's sort arranges every directory listing with
directories before files and each group in ascending name order (the
comparator order, pairwise), while keeping exactly the original entries;
on the listing `["b.txt", "A", "a.txt"]` with `A` a directory the result is
`A`, `a.txt`, `b.txt`. -/
theorem siblings_sorted :
    (∀ items : List FSEntry,
      (sortEntries items).Perm items ∧ List.Pairwise entryLeP (sortEntries items))
    ∧ sortEntries [FSEntry.file "b.txt" none, FSEntry.dir "A" [], FSEntry.file "a.txt" none]
      = [FSEntry.dir "A" [], FSEntry.file "a.txt" none, FSEntry.file "b.txt" none] := by
  exact ⟨fun items => ⟨sortEntries_perm items, sortEntries_pairwise items⟩, rfl⟩

/-- C8: the display name is the last URL path segment with a trailing
`.git` stripped (`repo` for both the HTTPS and the SSH example), and any
URL without a slash falls back to the literal `"repository"`. -/
theorem repo_name_from_url :
    getRepoNameFromUrl "https://github.com/user/repo.git" = "repo"
    ∧ getRepoNameFromUrl "git@github.com:user/repo" = "repo"
    ∧ (∀ url : String, strHasChar '/' url = false → getRepoNameFromUrl url = "repository") := by
  refine ⟨rfl, rfl, ?_⟩
  intro url h
  have hmem : ('/' : Char) ∉ url.data := by
    simpa [strHasChar] using h
  unfold getRepoNameFromUrl
  rw [afterLastSlash_none url.data hmem]

/-- Witness for C8: the slash-free URL `"abc"` falls back to the default
name. -/
theorem repo_name_from_url_witness : getRepoNameFromUrl "abc" = "repository" :=
  repo_name_from_url.2.2 "abc" (by decide)

/-- C5: in the filtered variant no directory node below the root ever has an
empty children list (a recursed subdirectory is pushed only when its
filtered children are non-empty), and a directory holding only a `.log`
file disappears entirely under the allow-list `[".md"]`. -/
theorem filtered_tree_pruning :
    (∀ (entries : List FSEntry) (excludeDirs : List String) (repoName : String)
      (includeExtensions : Option (List String)),
      noEmptyDirListB ((buildFileTreeF entries excludeDirs repoName
        includeExtensions).childrenOf) = true)
    ∧ buildFileTreeF [FSEntry.dir "sub" [FSEntry.file "x.log" (some "L")]] [] "r" (some [".md"])
      = FileTree.dir "r" [] := by
  constructor
  · intro entries excludeDirs repoName includeExtensions
    rw [buildFileTreeF_unfold]
    simp only [FileTree.childrenOf]
    exact noEmptyDir_buildChildrenF (sizeOf (sortEntries entries)) _ _ _ (le_refl _)
  · have hsub : buildFileTreeF [FSEntry.file "x.log" (some "L")] [] "sub" (some [".md"])
        = FileTree.dir "sub" [] := by
      rw [buildFileTreeF_unfold]
      have hs : sortEntries [FSEntry.file "x.log" (some "L")]
          = [FSEntry.file "x.log" (some "L")] := rfl
      rw [hs]
      have hext : extAllowed (some [".md"]) "x.log" = false := rfl
      simp [buildChildrenF, hext]
    rw [buildFileTreeF_unfold]
    have hs : sortEntries [FSEntry.dir "sub" [FSEntry.file "x.log" (some "L")]]
        = [FSEntry.dir "sub" [FSEntry.file "x.log" (some "L")]] := rfl
    rw [hs]
    simp [buildChildrenF, hsub, FileTree.childrenOf]

/-- C9: the unfiltered Tree Builder turns every file of a traversed listing
into a leaf unconditionally — the excluded-file list has no influence on the
tree, so a file named `.env` still appears in it — while the Content Merger
skips that same file. -/
theorem tree_ignores_excluded_files :
    (∀ (entries : List FSEntry) (excludeDirs : List String) (repoName fname : String)
      (c : Option String), FSEntry.file fname c ∈ entries →
      FileTree.file fname ∈ (buildFileTree entries excludeDirs repoName).childrenOf)
    ∧ buildFileTree [FSEntry.file ".env" (some "SECRET")]
        ["node_modules", ".git", "dist", "build"] "r"
      = FileTree.dir "r" [FileTree.file ".env"]
    ∧ processDirectory ["node_modules", ".git", "dist", "build"]
        [".env", ".gitignore", "package-lock.json"] "t" "r" "t"
        [FSEntry.file ".env" (some "SECRET")] = Except.ok "" := by
  refine ⟨?_, ?_, rfl⟩
  · intro entries excludeDirs repoName fname c hm
    rw [buildFileTree_unfold]
    simp only [FileTree.childrenOf]
    have hm' : FSEntry.file fname c ∈ sortEntries entries :=
      (sortEntries_perm entries).mem_iff.mpr hm
    exact file_mem_buildChildren (sortEntries entries) excludeDirs fname c hm'
  · rw [buildFileTree_unfold]
    have hs : sortEntries [FSEntry.file ".env" (some "SECRET")]
        = [FSEntry.file ".env" (some "SECRET")] := rfl
    rw [hs]
    simp [buildChildren]

/-- Witness for C9: the file `.env` of a concrete listing appears as a leaf
of the built tree. -/
theorem tree_ignores_excluded_files_witness :
    FileTree.file ".env" ∈ (buildFileTree [FSEntry.file ".env" (some "SECRET")]
      ["node_modules", ".git", "dist", "build"] "r").childrenOf :=
  tree_ignores_excluded_files.1 [FSEntry.file ".env" (some "SECRET")]
    ["node_modules", ".git", "dist", "build"] "r" ".env" (some "SECRET") (by simp)

/-- The lines of a non-empty sibling list start with the first sibling's
lines, whose last-child flag holds exactly when it has no right siblings. -/
theorem renderLinesList_cons (c : FileTree) (cs : List FileTree) (pfx : List Char) :
    renderLinesList (c :: cs) pfx = renderLines c pfx cs.isEmpty ++ renderLinesList cs pfx := by
  cases cs <;> simp [renderLinesList]

/-- C6: for every tree with newline-free names, the renderer output splits
into exactly one line per node (plus the empty piece after the final
newline), and each line is an indentation of width three times the node's
depth, a connector glyph, and the node's name, in preorder. -/
theorem renderer_lines_count_depth :
    ∀ t : FileTree, nlFreeTree t = true →
      (splitNl (generateTreeString t "" true)).length = numNodes t + 1
      ∧ List.Forall₂ (fun (l : String) (dn : Nat × String) =>
            ∃ ind mkr, l = ind ++ mkr ++ dn.2 ∧ ind.length = 3 * dn.1
              ∧ (mkr = "└─ " ∨ mkr = "├─ "))
          ((splitNl (generateTreeString t "" true)).dropLast) (depthNames t 0) := by
  intro t h
  have hsp := splitNl_generateTreeString t h
  have hshape := renderLines_shape t [] true 0 0 (by simp)
  have hlen : (renderLines t [] true).length = (depthNames t 0).length :=
    hshape.length_eq
  constructor
  · rw [hsp]
    simp [hlen, depthNames_len]
  · rw [hsp]
    have hdrop : (((renderLines t [] true).map fun l => (⟨l⟩ : String)) ++ [""]).dropLast
        = (renderLines t [] true).map fun l => (⟨l⟩ : String) := by
      simp
    rw [hdrop, List.forall₂_map_left_iff]
    refine hshape.imp ?_
    intro a b hab
    obtain ⟨ind, mkr, hline, hlen2, hm⟩ := hab
    refine ⟨⟨ind⟩, mkr, ?_, ?_, hm⟩
    · apply strData_inj
      simp [String.data_append, hline]
    · simpa using hlen2

/-- Witness for C6: a concrete two-node tree has newline-free names. -/
theorem renderer_lines_count_depth_witness :
    (splitNl (generateTreeString (FileTree.dir "r" [FileTree.file "a.md"]) "" true)).length
      = numNodes (FileTree.dir "r" [FileTree.file "a.md"]) + 1 :=
  (renderer_lines_count_depth (FileTree.dir "r" [FileTree.file "a.md"]) (by decide)).1

/-- C10: for a built tree whose root has at least one child, the caller's
splice drops the first two split pieces — the root's own line and the first
child's line — and joins the remainder under the synthesized
`repoName + "/"` line. -/
theorem tree_block_drops_first_child_line :
    ∀ (repoName n : String) (c : FileTree) (cs : List FileTree),
      nlFreeTree (FileTree.dir n (c :: cs)) = true →
      ∃ rest, splitNl (generateTreeString (FileTree.dir n (c :: cs)) "" true)
          = ("└─ " ++ n) :: ("   " ++ connector cs.isEmpty ++ FileTree.name c) :: rest
        ∧ treeBlock repoName (FileTree.dir n (c :: cs))
          = repoName ++ "/\n" ++ String.intercalate "\n" rest := by
  intro repoName n c cs h
  have hsp := splitNl_generateTreeString (FileTree.dir n (c :: cs)) h
  obtain ⟨tail1, hhead⟩ := renderLines_head c ((indentSeg true).data) cs.isEmpty
  have hlines : renderLines (FileTree.dir n (c :: cs)) [] true
      = ((connector true).data ++ n.data)
        :: (((indentSeg true).data ++ (connector cs.isEmpty).data ++ (FileTree.name c).data)
          :: (tail1 ++ renderLinesList cs ((indentSeg true).data))) := by
    show (([] ++ (connector true).data ++ n.data)
        :: renderLinesList (c :: cs) ([] ++ (indentSeg true).data)) = _
    simp only [List.nil_append]
    rw [renderLinesList_cons, hhead]
    simp
  refine ⟨(tail1 ++ renderLinesList cs ((indentSeg true).data)).map (fun l => (⟨l⟩ : String))
    ++ [""], ?_, ?_⟩
  · rw [hsp, hlines]
    simp only [List.map_cons, List.cons_append, List.cons.injEq]
    refine ⟨?_, ?_, trivial⟩
    · apply strData_inj
      simp [String.data_append, connector]
    · apply strData_inj
      simp [String.data_append, connector, indentSeg]
  · unfold treeBlock
    rw [hsp, hlines]
    simp only [List.map_cons, List.cons_append, List.drop_succ_cons, List.drop_zero]

/-- C1: under a well-formed listing with all files readable, each variant's
merge succeeds and its output is exactly the concatenation, in traversal
order, of one block per qualifying file — the path-header comment followed
by the unmodified content — with pairwise distinct header paths, so each
qualifying file appears exactly once between its own header and the next
one (or the end); a header path directly below the clone root displays the
repository name in place of the temporary directory name. -/
theorem merged_output_round_trip :
    ∀ (excludeDirs excludeFiles : List String) (includeExtensions : Option (List String))
      (tempDir repoName dirPath : String) (entries : List FSEntry),
      wfList entries = true → readableList entries = true →
      (processDirectory excludeDirs excludeFiles tempDir repoName dirPath entries
          = Except.ok (concatStrs
              ((dfsFiles (fileQualifies excludeFiles) excludeDirs dirPath entries).map
                fun pc => fileBlock tempDir repoName pc.1 (pc.2.getD "")))
        ∧ ((dfsFiles (fileQualifies excludeFiles) excludeDirs dirPath entries).map
            Prod.fst).Nodup)
      ∧ (processDirectoryF excludeDirs excludeFiles includeExtensions tempDir repoName
            dirPath entries
          = Except.ok (concatStrs
              ((dfsFiles (fileQualifiesF excludeFiles includeExtensions) excludeDirs
                  dirPath entries).map
                fun pc => fileBlock tempDir repoName pc.1 (pc.2.getD "")))
        ∧ ((dfsFiles (fileQualifiesF excludeFiles includeExtensions) excludeDirs
            dirPath entries).map Prod.fst).Nodup)
      ∧ (∀ rel content : String,
          fileBlock tempDir repoName (tempDir ++ "/" ++ rel) content
            = "\n// File: " ++ (repoName ++ "/" ++ rel) ++ "\n" ++ content ++ "\n") := by
  intro excludeDirs excludeFiles includeExtensions tempDir repoName dirPath entries hw hr
  refine ⟨⟨?_, ?_⟩, ⟨?_, ?_⟩, ?_⟩
  · exact processItems_eq (fileQualifies excludeFiles) excludeDirs tempDir repoName
      dirPath entries hr
  · exact dfsPaths_nodup (fileQualifies excludeFiles) excludeDirs dirPath entries hw
  · exact processItems_eq (fileQualifiesF excludeFiles includeExtensions) excludeDirs
      tempDir repoName dirPath entries hr
  · exact dfsPaths_nodup (fileQualifiesF excludeFiles includeExtensions) excludeDirs
      dirPath entries hw
  · intro rel content
    exact fileBlock_display tempDir repoName rel content

/-- Witness for C1: a concrete repository with a subdirectory, a markdown
file and a text file is well-formed and fully readable. -/
theorem merged_output_round_trip_witness :
    processDirectory [] [] "t" "r" "t"
        [FSEntry.dir "s" [FSEntry.file "a.md" (some "X")], FSEntry.file "b.txt" (some "Y")]
      = Except.ok (concatStrs
          ((dfsFiles (fileQualifies []) [] "t"
              [FSEntry.dir "s" [FSEntry.file "a.md" (some "X")],
                FSEntry.file "b.txt" (some "Y")]).map
            fun pc => fileBlock "t" "r" pc.1 (pc.2.getD ""))) :=
  (merged_output_round_trip [] [] (some [".md"]) "t" "r" "t"
    [FSEntry.dir "s" [FSEntry.file "a.md" (some "X")], FSEntry.file "b.txt" (some "Y")]
    (by decide) (by decide)).1.1

/-- C2 counterexample: the Content Merger iterates the raw `readdirSync`
listing without sorting, so for the listing `["b.txt", "a.txt"]` the merged
output lists `b.txt` before `a.txt`, while the §4.1 order (directories
first, then names ascending, at every level) demands `a.txt` first. -/
theorem traversal_order_counterexample :
    processDirectory [] [] "t" "r" "t"
        [FSEntry.file "b.txt" (some "B"), FSEntry.file "a.txt" (some "A")]
      = Except.ok "\n// File: r/b.txt\nB\n\n// File: r/a.txt\nA\n"
    ∧ concatStrs ((dfsFilesSorted (fileQualifies []) [] "t"
          [FSEntry.file "b.txt" (some "B"), FSEntry.file "a.txt" (some "A")]).map
        fun pc => fileBlock "t" "r" pc.1 (pc.2.getD ""))
      = "\n// File: r/a.txt\nA\n\n// File: r/b.txt\nB\n"
    ∧ ("\n// File: r/b.txt\nB\n\n// File: r/a.txt\nA\n" : String)
      ≠ "\n// File: r/a.txt\nA\n\n// File: r/b.txt\nB\n" := by
  refine ⟨rfl, ?_, by decide⟩
  have hs : sortEntries [FSEntry.file "b.txt" (some "B"), FSEntry.file "a.txt" (some "A")]
      = [FSEntry.file "a.txt" (some "A"), FSEntry.file "b.txt" (some "B")] := rfl
  have hq1 : fileQualifies [] "a.txt" = true := rfl
  have hq2 : fileQualifies [] "b.txt" = true := rfl
  rw [dfsFilesSorted, hs]
  simp only [dfsSortedGo, hq1, hq2, if_true]
  rfl

/-- C2 amended: both tree builders arrange every sibling list of the built
tree in §4.1 order (directories first, names ascending) with subtrees built
depth-first, while the Content Merger also works depth-first but takes
siblings in the raw listing order: its output is the concatenation of
blocks over the unsorted depth-first file sequence. -/
theorem traversal_order_amended :
    ∀ (entries : List FSEntry) (excludeDirs excludeFiles : List String)
      (includeExtensions : Option (List String)) (repoName tempDir dirPath : String),
      treeSortedB (buildFileTree entries excludeDirs repoName) = true
      ∧ treeSortedB (buildFileTreeF entries excludeDirs repoName includeExtensions) = true
      ∧ (readableList entries = true →
          processDirectory excludeDirs excludeFiles tempDir repoName dirPath entries
            = Except.ok (concatStrs
                ((dfsFiles (fileQualifies excludeFiles) excludeDirs dirPath entries).map
                  fun pc => fileBlock tempDir repoName pc.1 (pc.2.getD "")))
          ∧ processDirectoryF excludeDirs excludeFiles includeExtensions tempDir repoName
              dirPath entries
            = Except.ok (concatStrs
                ((dfsFiles (fileQualifiesF excludeFiles includeExtensions) excludeDirs
                    dirPath entries).map
                  fun pc => fileBlock tempDir repoName pc.1 (pc.2.getD "")))) := by
  intro entries excludeDirs excludeFiles includeExtensions repoName tempDir dirPath
  refine ⟨?_, ?_, ?_⟩
  · exact treeSortedB_buildFileTree (sizeOf entries) entries excludeDirs repoName (le_refl _)
  · exact treeSortedB_buildFileTreeF (sizeOf entries) entries excludeDirs repoName
      includeExtensions (le_refl _)
  · intro hr
    exact ⟨processItems_eq _ excludeDirs tempDir repoName dirPath entries hr,
      processItems_eq _ excludeDirs tempDir repoName dirPath entries hr⟩

/-- Witness for C2 (amended): the builder output for the unsorted two-file
listing is sorted, and the merge of that readable listing succeeds. -/
theorem traversal_order_amended_witness :
    treeSortedB (buildFileTree
        [FSEntry.file "b.txt" (some "B"), FSEntry.file "a.txt" (some "A")] [] "r") = true
    ∧ processDirectory [] [] "t" "r" "t"
        [FSEntry.file "b.txt" (some "B"), FSEntry.file "a.txt" (some "A")]
      = Except.ok (concatStrs
          ((dfsFiles (fileQualifies []) [] "t"
              [FSEntry.file "b.txt" (some "B"), FSEntry.file "a.txt" (some "A")]).map
            fun pc => fileBlock "t" "r" pc.1 (pc.2.getD ""))) :=
  ⟨(traversal_order_amended
      [FSEntry.file "b.txt" (some "B"), FSEntry.file "a.txt" (some "A")]
      [] [] none "r" "t" "t").1,
    ((traversal_order_amended
      [FSEntry.file "b.txt" (some "B"), FSEntry.file "a.txt" (some "A")]
      [] [] none "r" "t" "t").2.2 (by decide)).1⟩

/-- Witness for C10: a concrete root with two children has newline-free
names. -/
theorem tree_block_drops_first_child_line_witness :
    ∃ rest, splitNl (generateTreeString
          (FileTree.dir "r" [FileTree.file "a.md", FileTree.file "b.md"]) "" true)
        = ("└─ " ++ "r") :: ("   " ++ connector [FileTree.file "b.md"].isEmpty
            ++ FileTree.name (FileTree.file "a.md")) :: rest
      ∧ treeBlock "repo" (FileTree.dir "r" [FileTree.file "a.md", FileTree.file "b.md"])
        = "repo" ++ "/\n" ++ String.intercalate "\n" rest :=
  tree_block_drops_first_child_line "repo" "r" (FileTree.file "a.md")
    [FileTree.file "b.md"] (by decide)
